import Mathlib

/-! Verification of the Shamir secret-sharing core (src/gf256.rs,
src/polynomial.rs, src/shamir.rs).  Bytes are modelled as `Nat`; the `u8`
shift that discards bit 8 is rendered with an explicit `% 256`.  Rust panics
are modelled as failure values (`Option` / `Except String`) carrying the
panic message.  The randomness consumed by `split` is passed in explicitly. -/

namespace GF256

/-- Addition in GF(2^8) (src/gf256.rs `add`): bitwise XOR. -/
def add (a b : Nat) : Nat := a ^^^ b

/-- One shift step of the peasant-multiplication loop of src/gf256.rs `mult`:
`a = (a << 1) ^ 0x1B` when bit 7 of `a` is set (the `u8` shift discards
bit 8, hence the `% 256`), else `a = a << 1`. -/
def xtime (a : Nat) : Nat :=
  if a &&& 0x80 ≠ 0 then ((a * 2) % 256) ^^^ 0x1B else a * 2

/-- The `while b > 0` loop of src/gf256.rs `mult`, with explicit fuel consumed
once per iteration.  Each iteration XORs `a` into `result` when the low bit of
`b` is set, then shifts `a` (see `xtime`) and halves `b`. -/
def multGo : Nat → Nat → Nat → Nat → Nat
  | 0, _, _, result => result
  | fuel + 1, a, b, result =>
    if b = 0 then result
    else multGo fuel (xtime a) (b / 2) (if b &&& 1 ≠ 0 then result ^^^ a else result)

/-- Multiplication in GF(2^8) (src/gf256.rs `mult`).  Since `b` strictly
decreases each iteration (`b / 2 < b`), `b` itself is enough fuel for the loop
to terminate with `b = 0`. -/
def mult (a b : Nat) : Nat := multGo b a b 0

/-- Multiplicative inverse (src/gf256.rs `inverse`): the source's fixed chain
of squarings and multiplications; the successive values of its mutable
variables `b` and `c` are named `b1, c1, b2, …` here. -/
def inverse (a : Nat) : Nat :=
  let b1 := mult a a
  let c1 := mult a b1
  let b2 := mult c1 c1
  let b3 := mult b2 b2
  let c2 := mult b3 c1
  let b4 := mult b3 b3
  let b5 := mult b4 b4
  let b6 := mult b5 c2
  let b7 := mult b6 b6
  let b8 := mult a b7
  mult b8 b8

/-- Division (src/gf256.rs `div`).  The `panic!("divide by zero")` on `b = 0`
is modelled as `none`; otherwise the result is `0` when `a = 0`, else
`mult a (inverse b)`. -/
def div (a b : Nat) : Option Nat :=
  if b = 0 then none
  else some (if a = 0 then 0 else mult a (inverse b))

/-- Reference exponentiation in GF(2^8) by repeated `mult`, used to state the
specification's characterisation `inverse a = a ^ 254`. -/
def gfpow (a : Nat) : Nat → Nat
  | 0 => 1
  | n + 1 => mult (gfpow a n) a

end GF256

namespace Shamir

/-- Polynomial over GF(2^8) (src/polynomial.rs `Polynomial`). -/
structure Polynomial where
  coefficients : List Nat

/-- Construction (src/polynomial.rs `Polynomial::new`): the intercept followed
by the random coefficients; `rnd` stands for the `degree` bytes drawn from
`rng.gen_range(0..=255)`. -/
def Polynomial.new (intercept : Nat) (rnd : List Nat) : Polynomial :=
  ⟨intercept :: rnd⟩

/-- Horner evaluation (src/polynomial.rs `Polynomial::evaluate`): fold the
coefficients from highest degree down with `acc ↦ add (mult acc x) coeff`. -/
def Polynomial.evaluate (p : Polynomial) (x : Nat) : Nat :=
  p.coefficients.reverse.foldl (fun acc coeff => GF256.add (GF256.mult acc x) coeff) 0

/-- Lagrange interpolation at `x` (src/shamir.rs `interpolate_polynomial`).
`GF256.div` can fail (division by zero), so the iterator chain is rendered as
a monadic fold over `Option`; `y_samples.get? i` models the index
`y_samples[i]`. -/
def interpolate_polynomial (x_samples y_samples : List Nat) (x : Nat) : Option Nat :=
  x_samples.enum.foldlM
    (fun acc ixi => do
      let basis ← (x_samples.enum.filter (fun jxj => jxj.1 ≠ ixi.1)).foldlM
        (fun b jxj => do
          let t ← GF256.div (GF256.add x jxj.2) (GF256.add ixi.2 jxj.2)
          pure (GF256.mult b t)) 1
      let yi ← y_samples.get? ixi.1
      pure (GF256.add acc (GF256.mult yi basis))) 0

/-- Splitting (src/shamir.rs `split`).  The five validation panics are
modelled as `Except.error` carrying the panic message.  The randomness is
explicit: `xcoords` stands for the outcome of
`(1..=255).choose_multiple(&mut rng, parts)` and `rnd idx` for the random
coefficients of the polynomial protecting secret byte `idx`.  After
validation, share `i` holds the evaluations at `xcoords[i]` of the per-byte
polynomials, with `xcoords[i]` appended as the trailing byte. -/
def split (secret : List Nat) (parts threshold : Nat)
    (xcoords : List Nat) (rnd : Nat → List Nat) : Except String (List (List Nat)) :=
  if parts < threshold then .error "parts cannot be less than threshold"
  else if parts > 255 then .error "parts cannot exceed 255"
  else if threshold < 2 then .error "threshold must be at least 2"
  else if threshold > 255 then .error "threshold cannot exceed 255"
  else if secret.isEmpty then .error "cannot split an empty secret"
  else .ok (xcoords.map (fun x =>
    secret.enum.map (fun idxv => (Polynomial.new idxv.2 (rnd idxv.1)).evaluate x) ++ [x]))

/-- Combining (src/shamir.rs `combine`).  The three validation panics are
modelled as `Except.error` with the panic message; the duplicate check through
the `check_map : HashSet` is rendered as a `Nodup` test on the trailing
x-coordinates.  A failing division inside `interpolate_polynomial`
(impossible once the duplicate check passed) surfaces as the
`"divide by zero"` panic. -/
def combine (parts : List (List Nat)) : Except String (List Nat) :=
  if parts.length < 2 then
    .error "less than two parts cannot be used to reconstruct the secret"
  else
    let first_part_len := (parts.getD 0 []).length
    if first_part_len < 2 ∨ parts.any (fun part => part.length != first_part_len) then
      .error "all parts must be at least two bytes and the same length"
    else
      let x_samples := parts.map (fun part => part.getLastD 0)
      if ¬ x_samples.Nodup then .error "duplicate part detected"
      else
        match (List.range (first_part_len - 1)).mapM
            (fun idx => interpolate_polynomial x_samples
              (parts.map (fun part => part.getD idx 0)) 0) with
        | some secret => .ok secret
        | none => .error "divide by zero"

end Shamir

/-! Carry-less multiplication on `Nat`: the mathematical model of GF(2)[X]
against which the peasant-multiplication loop `GF256.mult` is verified. -/

namespace GF256

/-- Carry-less (GF(2)-polynomial) product of two naturals read as polynomials
over GF(2) in binary. -/
def clMul (a b : Nat) : Nat :=
  if h : a = 0 then 0
  else (if a % 2 = 1 then b else 0) ^^^ 2 * clMul (a / 2) b
termination_by a
decreasing_by exact Nat.div_lt_self (Nat.pos_of_ne_zero h) (by norm_num)

theorem clMul_zero_left (b : Nat) : clMul 0 b = 0 := by
  rw [clMul]; simp

theorem clMul_eq (a b : Nat) (h : a ≠ 0) :
    clMul a b = (if a % 2 = 1 then b else 0) ^^^ 2 * clMul (a / 2) b := by
  rw [clMul]; simp [h]

theorem xor_left_comm (a b c : Nat) : a ^^^ (b ^^^ c) = b ^^^ (a ^^^ c) := by
  rw [← Nat.xor_assoc, Nat.xor_comm a b, Nat.xor_assoc]

theorem xor_swap_pairs (p q r s : Nat) : (p ^^^ q) ^^^ (r ^^^ s) = (p ^^^ r) ^^^ (q ^^^ s) := by
  rw [Nat.xor_assoc, Nat.xor_assoc, xor_left_comm q r s]

theorem two_mul_xor (x y : Nat) : 2 * (x ^^^ y) = 2 * x ^^^ 2 * y := by
  have h := Nat.xor_bit false x false y
  simpa [Nat.bit_val] using h.symm

theorem clMul_bit (b : Bool) (n c : Nat) :
    clMul (Nat.bit b n) c = (if b then c else 0) ^^^ 2 * clMul n c := by
  cases b with
  | false =>
    by_cases hn : n = 0
    · simp [hn, Nat.bit_val, clMul_zero_left]
    · have hbit : (2 * n : Nat) ≠ 0 := by omega
      rw [Nat.bit_val]
      rw [clMul_eq _ _ (by simpa using hbit)]
      simp [Nat.mul_div_cancel_left _ (by norm_num : (0:Nat) < 2), Nat.mul_mod_right]
  | true =>
    have hbit : (2 * n + 1 : Nat) ≠ 0 := by omega
    rw [Nat.bit_val]
    simp only [Bool.toNat_true]
    rw [clMul_eq _ _ hbit]
    have h1 : (2 * n + 1) % 2 = 1 := by omega
    have h2 : (2 * n + 1) / 2 = n := by omega
    simp [h1, h2]

theorem clMul_zero_right (a : Nat) : clMul a 0 = 0 := by
  induction a using Nat.binaryRec with
  | z => exact clMul_zero_left 0
  | f b n ih => rw [clMul_bit, ih]; cases b <;> simp

theorem clMul_one_left (b : Nat) : clMul 1 b = b := by
  have h : (1 : Nat) = Nat.bit true 0 := by simp [Nat.bit_val]
  rw [h, clMul_bit, clMul_zero_left]; simp

theorem clMul_two_mul_left (a b : Nat) : clMul (2 * a) b = 2 * clMul a b := by
  have h : (2 * a : Nat) = Nat.bit false a := by simp [Nat.bit_val]
  rw [h, clMul_bit]; simp

theorem clMul_xor_right (a b c : Nat) : clMul a (b ^^^ c) = clMul a b ^^^ clMul a c := by
  induction a using Nat.binaryRec with
  | z => simp [clMul_zero_left]
  | f bb n ih =>
    rw [clMul_bit, clMul_bit, clMul_bit, ih, two_mul_xor]
    cases bb
    · simp
    · simp only [if_pos]
      exact xor_swap_pairs b c (2 * clMul n b) (2 * clMul n c)

theorem clMul_one_right (a : Nat) : clMul a 1 = a := by
  induction a using Nat.binaryRec with
  | z => exact clMul_zero_left 1
  | f b n ih =>
    rw [clMul_bit, ih]
    cases b
    · simp [Nat.bit_val]
    · have h := Nat.xor_bit true 0 false n
      simp only [Nat.bit_val, Bool.toNat_true, Bool.toNat_false] at h
      simp only [if_pos, Nat.bit_val, Bool.toNat_true]
      calc 1 ^^^ 2 * n = (2 * 0 + 1) ^^^ (2 * n + 0) := by norm_num
        _ = 2 * (0 ^^^ n) + 1 := by
              have hb : (true != false) = true := rfl
              simpa [hb] using h
        _ = 2 * n + 1 := by simp

theorem clMul_two_mul_right (a b : Nat) : clMul a (2 * b) = 2 * clMul a b := by
  induction a using Nat.binaryRec with
  | z => simp [clMul_zero_left]
  | f bb n ih =>
    rw [clMul_bit, clMul_bit, ih]
    cases bb
    · simp
    · simp only [if_pos]
      rw [two_mul_xor]

theorem clMul_comm (a b : Nat) : clMul a b = clMul b a := by
  induction a using Nat.binaryRec with
  | z => rw [clMul_zero_left, clMul_zero_right]
  | f bb n ih =>
    rw [clMul_bit, ih]
    have hb : Nat.bit bb n = 2 * n ^^^ (if bb then 1 else 0) := by
      cases bb
      · simp [Nat.bit_val]
      · have h := Nat.xor_bit false n true 0
        simp only [Nat.bit_val, Bool.toNat_true, Bool.toNat_false] at h
        simp only [Nat.bit_val, Bool.toNat_true, if_pos]
        calc 2 * n + 1 = 2 * (n ^^^ 0) + 1 := by simp
          _ = (2 * n + 0) ^^^ (2 * 0 + 1) := by
                have hb2 : (false != true) = true := rfl
                simpa [hb2] using h.symm
          _ = 2 * n ^^^ 1 := by norm_num
    rw [hb, clMul_xor_right, clMul_two_mul_right]
    cases bb
    · simp [clMul_zero_right]
    · simp [clMul_one_right, Nat.xor_comm]

theorem clMul_xor_left (a b c : Nat) : clMul (a ^^^ b) c = clMul a c ^^^ clMul b c := by
  rw [clMul_comm, clMul_xor_right, clMul_comm c a, clMul_comm c b]

theorem clMul_assoc (a b c : Nat) : clMul (clMul a b) c = clMul a (clMul b c) := by
  induction a using Nat.binaryRec with
  | z => simp [clMul_zero_left]
  | f bb n ih =>
    rw [clMul_bit, clMul_xor_left, clMul_two_mul_left, ih, clMul_bit]
    cases bb
    · simp [clMul_zero_left]
    · simp

end GF256

namespace GF256

theorem xor_high_bit_le {k x y : Nat} (hx : x < 2 ^ k) (hy : 2 ^ k ≤ y) :
    2 ^ k ≤ x ^^^ y := by
  have hex : ∃ i, k ≤ i ∧ y.testBit i = true := by
    by_contra hno
    push_neg at hno
    have hylt : y < 2 ^ k := Nat.lt_pow_two_of_testBit y (fun i hi => by
      have h := hno i hi
      simpa using h)
    omega
  obtain ⟨i, hki, hbit⟩ := hex
  have hxbit : x.testBit i = false :=
    Nat.testBit_eq_false_of_lt (lt_of_lt_of_le hx (Nat.pow_le_pow_right (by norm_num) hki))
  have hxy : (x ^^^ y).testBit i = true := by
    rw [Nat.testBit_xor, hxbit, hbit]; rfl
  have h1 := Nat.testBit_implies_ge hxy
  have h2 : 2 ^ k ≤ 2 ^ i := Nat.pow_le_pow_right (by norm_num) hki
  omega

theorem le_clMul {t : Nat} (b : Nat) (ht : t ≠ 0) : b ≤ clMul t b := by
  induction t using Nat.binaryRec with
  | z => exact absurd rfl ht
  | f bb n ih =>
    rw [clMul_bit]
    by_cases hn : n = 0
    · subst hn
      cases bb
      · simp [Nat.bit_val] at ht
      · simp [clMul_zero_left]
    · have h1 : b ≤ clMul n b := ih hn
      by_cases hb : b = 0
      · simp [hb]
      · have hbk : b < 2 ^ (b.log2 + 1) := Nat.lt_log2_self
        have hbk2 : 2 ^ b.log2 ≤ b := Nat.log2_self_le hb
        have hy : 2 ^ (b.log2 + 1) ≤ 2 * clMul n b := by
          rw [pow_succ]
          omega
        have hle : 2 ^ (b.log2 + 1) ≤ (if bb then b else 0) ^^^ 2 * clMul n b := by
          refine xor_high_bit_le ?_ hy
          cases bb
          · simpa using Nat.pos_pow_of_pos (b.log2 + 1) (by norm_num)
          · simpa using hbk
        omega

/-- Congruence modulo the reduction polynomial 0x11B in the carry-less ring. -/
def clEquiv (u v : Nat) : Prop := ∃ t, u ^^^ v = clMul t 283

theorem clEquiv_refl (u : Nat) : clEquiv u u :=
  ⟨0, by simp [clMul_zero_left]⟩

theorem clEquiv_symm {u v : Nat} (h : clEquiv u v) : clEquiv v u := by
  obtain ⟨t, ht⟩ := h
  exact ⟨t, by rw [Nat.xor_comm]; exact ht⟩

theorem clEquiv_trans {u v w : Nat} (h1 : clEquiv u v) (h2 : clEquiv v w) : clEquiv u w := by
  obtain ⟨t, ht⟩ := h1
  obtain ⟨s, hs⟩ := h2
  refine ⟨t ^^^ s, ?_⟩
  rw [clMul_xor_left, ← ht, ← hs, Nat.xor_assoc, ← Nat.xor_assoc v v w, Nat.xor_self,
    Nat.zero_xor]

theorem clEquiv_xor {u v u' v' : Nat} (h : clEquiv u v) (h' : clEquiv u' v') :
    clEquiv (u ^^^ u') (v ^^^ v') := by
  obtain ⟨t, ht⟩ := h
  obtain ⟨s, hs⟩ := h'
  exact ⟨t ^^^ s, by rw [clMul_xor_left, ← ht, ← hs, xor_swap_pairs]⟩

theorem clEquiv_clMul_left {u v : Nat} (c : Nat) (h : clEquiv u v) :
    clEquiv (clMul c u) (clMul c v) := by
  obtain ⟨t, ht⟩ := h
  exact ⟨clMul c t, by rw [← clMul_xor_right, ht, clMul_assoc]⟩

theorem clEquiv_clMul_right {u v : Nat} (c : Nat) (h : clEquiv u v) :
    clEquiv (clMul u c) (clMul v c) := by
  rw [clMul_comm u c, clMul_comm v c]
  exact clEquiv_clMul_left c h

theorem clEquiv_eq_of_lt {u v : Nat} (hu : u < 256) (hv : v < 256) (h : clEquiv u v) :
    u = v := by
  obtain ⟨t, ht⟩ := h
  by_cases htz : t = 0
  · rw [htz, clMul_zero_left] at ht
    exact Nat.xor_eq_zero.mp ht
  · have h283 : (283 : Nat) ≤ clMul t 283 := le_clMul 283 htz
    have h256 : (2 : Nat) ^ 8 = 256 := by norm_num
    have hxor : u ^^^ v < 256 :=
      h256 ▸ Nat.xor_lt_two_pow (h256.symm ▸ hu) (h256.symm ▸ hv)
    omega

theorem multGo_zero_b (f a r : Nat) : multGo f a 0 r = r := by
  cases f <;> simp [multGo]

theorem multGo_acc (f : Nat) : ∀ a b r, multGo f a b r = r ^^^ multGo f a b 0 := by
  induction f with
  | zero => intro a b r; simp [multGo]
  | succ f ih =>
    intro a b r
    by_cases hb : b = 0
    · simp [multGo, hb]
    · simp only [multGo, if_neg hb]
      rw [ih (xtime a) (b / 2) (if b &&& 1 ≠ 0 then r ^^^ a else r),
        ih (xtime a) (b / 2) (if b &&& 1 ≠ 0 then 0 ^^^ a else 0)]
      by_cases hbit : b &&& 1 ≠ 0
      · simp only [if_pos hbit, Nat.zero_xor, Nat.xor_assoc]
      · simp only [if_neg hbit, Nat.zero_xor]

theorem multGo_fuel : ∀ f f' b a r, b ≤ f → b ≤ f' → multGo f a b r = multGo f' a b r := by
  intro f
  induction f with
  | zero =>
    intro f' b a r h h'
    have hb : b = 0 := by omega
    subst hb
    rw [multGo_zero_b, multGo_zero_b]
  | succ f ih =>
    intro f' b a r h h'
    by_cases hb : b = 0
    · subst hb; rw [multGo_zero_b, multGo_zero_b]
    · obtain ⟨k, rfl⟩ : ∃ k, f' = k + 1 := ⟨f' - 1, by omega⟩
      show multGo (f + 1) a b r = multGo (k + 1) a b r
      simp only [multGo, if_neg hb]
      exact ih _ _ _ _ (by omega) (by omega)

theorem mult_unfold (a b : Nat) :
    mult a b = if b = 0 then 0
      else (if b &&& 1 ≠ 0 then a else 0) ^^^ mult (xtime a) (b / 2) := by
  by_cases hb : b = 0
  · simp [mult, hb, multGo_zero_b]
  · simp only [if_neg hb]
    obtain ⟨k, rfl⟩ : ∃ k, b = k + 1 := ⟨b - 1, by omega⟩
    show multGo (k + 1) a (k + 1) 0 = _
    simp only [multGo, if_neg hb]
    rw [multGo_acc, multGo_fuel k ((k + 1) / 2) ((k + 1) / 2) (xtime a) 0 (by omega) (by omega)]
    show _ = (if (k + 1) &&& 1 ≠ 0 then a else 0) ^^^ multGo ((k + 1) / 2) (xtime a) ((k + 1) / 2) 0
    by_cases hbit : (k + 1) &&& 1 ≠ 0
    · simp only [if_pos hbit, Nat.zero_xor]
    · simp only [if_neg hbit]

end GF256

namespace GF256

theorem and_128_ne_iff {a : Nat} : a &&& 128 ≠ 0 ↔ a.testBit 7 = true := by
  constructor
  · intro h
    by_contra h7
    have h7f : a.testBit 7 = false := by
      cases hb : a.testBit 7
      · rfl
      · exact absurd hb h7
    apply h
    apply Nat.eq_of_testBit_eq
    intro i
    rw [Nat.testBit_and, Nat.zero_testBit]
    rcases eq_or_ne i 7 with rfl | hne
    · rw [h7f]; rfl
    · rw [show (128 : Nat) = 2 ^ 7 by norm_num, Nat.testBit_two_pow_of_ne (by omega)]
      simp
  · intro h7 h0
    have : (a &&& 128).testBit 7 = true := by
      rw [Nat.testBit_and, h7, show (128 : Nat) = 2 ^ 7 by norm_num,
        Nat.testBit_two_pow_self]
      rfl
    rw [h0, Nat.zero_testBit] at this
    exact Bool.false_ne_true this

theorem testBit_seven_false_lt {a : Nat} (ha : a < 256) (h7 : a.testBit 7 = false) :
    a < 128 := by
  have h : a < 2 ^ 7 := by
    apply Nat.lt_pow_two_of_testBit
    intro i hi
    rcases eq_or_ne i 7 with rfl | hne
    · exact h7
    · exact Nat.testBit_eq_false_of_lt
        (lt_of_lt_of_le ha (by
          calc (256 : Nat) = 2 ^ 8 := by norm_num
            _ ≤ 2 ^ i := Nat.pow_le_pow_right (by norm_num) (by omega)))
  simpa using h

theorem xtime_lt {a : Nat} (ha : a < 256) : xtime a < 256 := by
  unfold xtime
  by_cases h : a &&& 0x80 ≠ 0
  · simp only [if_pos h]
    have h256 : (2 : Nat) ^ 8 = 256 := by norm_num
    have h1 : (a * 2) % 256 < 256 := Nat.mod_lt _ (by norm_num)
    exact h256 ▸ Nat.xor_lt_two_pow (h256.symm ▸ h1) (by norm_num)
  · simp only [if_neg h]
    have h7 : a.testBit 7 = false := by
      by_cases hb : a.testBit 7 = true
      · exact absurd (and_128_ne_iff.mpr hb) h
      · cases hc : a.testBit 7
        · rfl
        · exact absurd hc hb
    have := testBit_seven_false_lt ha h7
    omega

theorem two_pow_add_eq_xor {k y : Nat} (h : y < 2 ^ k) : 2 ^ k + y = 2 ^ k ^^^ y := by
  apply Nat.eq_of_testBit_eq
  intro i
  rcases lt_trichotomy i k with hik | rfl | hik
  · rw [Nat.testBit_two_pow_add_gt hik, Nat.testBit_xor,
      Nat.testBit_two_pow_of_ne (by omega : k ≠ i)]
    simp
  · rw [Nat.testBit_two_pow_add_eq, Nat.testBit_xor, Nat.testBit_two_pow_self,
      Nat.testBit_eq_false_of_lt h]
    simp
  · have hpow : 2 ^ (k + 1) ≤ 2 ^ i := Nat.pow_le_pow_right (by norm_num) (by omega)
    have hks : (2 : Nat) ^ (k + 1) = 2 ^ k * 2 := pow_succ 2 k
    have hl : 2 ^ k + y < 2 ^ i := by omega
    rw [Nat.testBit_eq_false_of_lt hl, Nat.testBit_xor,
      Nat.testBit_two_pow_of_ne (by omega : k ≠ i),
      Nat.testBit_eq_false_of_lt (show y < 2 ^ i by omega)]
    rfl

theorem xtime_char {a : Nat} (ha : a < 256) :
    xtime a = 2 * a ^^^ (if a &&& 0x80 ≠ 0 then 283 else 0) := by
  unfold xtime
  by_cases h : a &&& 0x80 ≠ 0
  · simp only [if_pos h]
    have h7 : a.testBit 7 = true := and_128_ne_iff.mp h
    have h128 : 128 ≤ a := by
      have := Nat.testBit_implies_ge h7
      norm_num at this
      omega
    have hmod : (a * 2) % 256 = 2 * a - 256 := by omega
    have hy : 2 * a - 256 < 256 := by omega
    have hsum : 2 * a = 2 ^ 8 + (2 * a - 256) := by norm_num; omega
    have hxor : 256 ^^^ (2 * a - 256) = 2 * a := by
      have h1 : (2 : Nat) ^ 8 + (2 * a - 256) = 2 ^ 8 ^^^ (2 * a - 256) :=
        two_pow_add_eq_xor (by norm_num; omega)
      simp only [show (2 : Nat) ^ 8 = 256 from by norm_num] at h1
      omega
    have hyx : (2 * a) ^^^ 256 = 2 * a - 256 := by
      conv_lhs => rw [← hxor]
      rw [Nat.xor_comm 256 (2 * a - 256), Nat.xor_cancel_right]
    rw [hmod, ← hyx, Nat.xor_assoc, show (256 ^^^ 27 : Nat) = 283 from by decide]
  · simp only [if_neg h, Nat.xor_zero]
    ring

end GF256

namespace GF256

theorem mult_lt : ∀ b a : Nat, a < 256 → mult a b < 256 := by
  intro b
  induction b using Nat.strong_induction_on with
  | _ b ih =>
    intro a ha
    rw [mult_unfold]
    by_cases hb : b = 0
    · simp [hb]
    · simp only [if_neg hb]
      have h1 : mult (xtime a) (b / 2) < 256 := ih (b / 2) (by omega) _ (xtime_lt ha)
      have h256 : (2 : Nat) ^ 8 = 256 := by norm_num
      have h2 : (if b &&& 1 ≠ 0 then a else 0) < 256 := by
        by_cases hbit : b &&& 1 ≠ 0
        · rw [if_pos hbit]; exact ha
        · rw [if_neg hbit]; omega
      exact h256 ▸ Nat.xor_lt_two_pow (h256.symm ▸ h2) (h256.symm ▸ h1)

theorem mult_equiv : ∀ b a : Nat, a < 256 → clEquiv (mult a b) (clMul b a) := by
  intro b
  induction b using Nat.strong_induction_on with
  | _ b ih =>
    intro a ha
    by_cases hb : b = 0
    · subst hb
      rw [mult_unfold, clMul_zero_left]
      simp only [if_pos rfl]
      exact clEquiv_refl 0
    · rw [mult_unfold, if_neg hb, clMul_eq b a hb]
      have hif : (if b &&& 1 ≠ 0 then a else 0) = (if b % 2 = 1 then a else 0) := by
        rw [Nat.and_one_is_mod]
        by_cases h1 : b % 2 = 1 <;> simp [h1]
      rw [hif]
      refine clEquiv_xor (clEquiv_refl _) ?_
      have hx : xtime a < 256 := xtime_lt ha
      refine clEquiv_trans (ih (b / 2) (by omega) _ hx) ?_
      rw [xtime_char ha, clMul_xor_right, clMul_two_mul_right]
      refine ⟨if a &&& 0x80 ≠ 0 then b / 2 else 0, ?_⟩
      by_cases h7 : a &&& 0x80 ≠ 0
      · simp only [if_pos h7]
        rw [Nat.xor_comm (2 * clMul (b / 2) a) (clMul (b / 2) 283), Nat.xor_cancel_right,
          clMul_comm]
      · simp only [if_neg h7, clMul_zero_right, clMul_zero_left, Nat.xor_zero, Nat.xor_self]

theorem mult_comm_byte {a b : Nat} (ha : a < 256) (hb : b < 256) : mult a b = mult b a := by
  apply clEquiv_eq_of_lt (mult_lt b a ha) (mult_lt a b hb)
  refine clEquiv_trans (mult_equiv b a ha) ?_
  rw [clMul_comm]
  exact clEquiv_symm (mult_equiv a b hb)

theorem mult_assoc_byte {a b c : Nat} (ha : a < 256) (hb : b < 256) (hc : c < 256) :
    mult (mult a b) c = mult a (mult b c) := by
  have hab : mult a b < 256 := mult_lt b a ha
  have hbc : mult b c < 256 := mult_lt c b hb
  apply clEquiv_eq_of_lt (mult_lt c _ hab) (mult_lt _ a ha)
  refine clEquiv_trans (mult_equiv c _ hab)
    (clEquiv_trans ?_ (clEquiv_symm (mult_equiv _ a ha)))
  have e1 : clEquiv (mult a b) (clMul a b) := by
    refine clEquiv_trans (mult_equiv b a ha) ?_
    rw [clMul_comm]
    exact clEquiv_refl _
  have e2 : clEquiv (mult b c) (clMul b c) := by
    refine clEquiv_trans (mult_equiv c b hb) ?_
    rw [clMul_comm]
    exact clEquiv_refl _
  refine clEquiv_trans (clEquiv_clMul_left c e1) ?_
  refine clEquiv_trans ?_ (clEquiv_clMul_right a (clEquiv_symm e2))
  rw [clMul_comm c (clMul a b), clMul_assoc a b c, clMul_comm a (clMul b c)]
  exact clEquiv_refl _

theorem mult_xor_left {a b c : Nat} (ha : a < 256) (hb : b < 256) :
    mult (a ^^^ b) c = mult a c ^^^ mult b c := by
  have h256 : (2 : Nat) ^ 8 = 256 := by norm_num
  have hab : a ^^^ b < 256 := h256 ▸ Nat.xor_lt_two_pow (h256.symm ▸ ha) (h256.symm ▸ hb)
  apply clEquiv_eq_of_lt (mult_lt c _ hab)
    (h256 ▸ Nat.xor_lt_two_pow (h256.symm ▸ mult_lt c a ha) (h256.symm ▸ mult_lt c b hb))
  refine clEquiv_trans (mult_equiv c _ hab) ?_
  rw [clMul_xor_right]
  exact clEquiv_xor (clEquiv_symm (mult_equiv c a ha)) (clEquiv_symm (mult_equiv c b hb))

theorem mult_zero_right (a : Nat) : mult a 0 = 0 := by
  rw [mult_unfold]; simp

theorem mult_one_right (a : Nat) : mult a 1 = a := by
  rw [mult_unfold]
  norm_num
  rw [mult_zero_right, Nat.xor_zero]

theorem mult_zero_left : ∀ b : Nat, mult 0 b = 0 := by
  intro b
  induction b using Nat.strong_induction_on with
  | _ b ih =>
    rw [mult_unfold]
    by_cases hb : b = 0
    · simp [hb]
    · simp only [if_neg hb]
      have hxt : xtime 0 = 0 := by decide
      rw [hxt, ih (b / 2) (by omega)]
      by_cases hbit : b &&& 1 ≠ 0 <;> simp [hbit]

theorem mult_one_left {b : Nat} (hb : b < 256) : mult 1 b = b := by
  rw [mult_comm_byte (by norm_num) hb, mult_one_right]

theorem mult_xor_right {a b c : Nat} (ha : a < 256) (hb : b < 256) (hc : c < 256) :
    mult a (b ^^^ c) = mult a b ^^^ mult a c := by
  have h256 : (2 : Nat) ^ 8 = 256 := by norm_num
  have hbc : b ^^^ c < 256 := h256 ▸ Nat.xor_lt_two_pow (h256.symm ▸ hb) (h256.symm ▸ hc)
  rw [mult_comm_byte ha hbc, mult_xor_left hb hc, mult_comm_byte hb ha, mult_comm_byte hc ha]

end GF256

namespace GF256

theorem add_lt {a b : Nat} (ha : a < 256) (hb : b < 256) : add a b < 256 := by
  have h256 : (2 : Nat) ^ 8 = 256 := by norm_num
  exact h256 ▸ Nat.xor_lt_two_pow (h256.symm ▸ ha) (h256.symm ▸ hb)

theorem inverse_lt {a : Nat} (ha : a < 256) : inverse a < 256 := by
  unfold inverse
  exact mult_lt _ _ (mult_lt _ _ ha)

set_option maxRecDepth 10000 in
theorem mult_inverse_cancel : ∀ a < 256, a ≠ 0 → mult a (inverse a) = 1 := by decide

theorem inverse_zero : inverse 0 = 0 := by decide

end GF256

/-- GF(2^8) as a type: the bytes `0 ≤ val < 256` with the operations of
src/gf256.rs.  The field axioms proved about `GF256.add` and `GF256.mult`
equip it with a `Field` instance. -/
structure GF where
  val : Nat
  lt256 : val < 256
deriving DecidableEq

theorem GF.eq_of_val {x y : GF} (h : x.val = y.val) : x = y := by
  cases x; cases y; simpa using h

instance : Zero GF := ⟨⟨0, by norm_num⟩⟩

instance : One GF := ⟨⟨1, by norm_num⟩⟩

instance : Add GF := ⟨fun x y => ⟨GF256.add x.val y.val, GF256.add_lt x.lt256 y.lt256⟩⟩

instance : Mul GF := ⟨fun x y => ⟨GF256.mult x.val y.val, GF256.mult_lt _ _ x.lt256⟩⟩

instance : Neg GF := ⟨fun x => x⟩

instance : Inv GF := ⟨fun x => ⟨GF256.inverse x.val, GF256.inverse_lt x.lt256⟩⟩

theorem GF.val_zero : (0 : GF).val = 0 := rfl

theorem GF.val_one : (1 : GF).val = 1 := rfl

theorem GF.val_add (x y : GF) : (x + y).val = GF256.add x.val y.val := rfl

theorem GF.val_mul (x y : GF) : (x * y).val = GF256.mult x.val y.val := rfl

theorem GF.val_neg (x : GF) : (-x).val = x.val := rfl

theorem GF.val_inv (x : GF) : x⁻¹.val = GF256.inverse x.val := rfl

instance : CommRing GF where
  nsmul := nsmulRec
  zsmul := zsmulRec
  add_assoc x y z := GF.eq_of_val (Nat.xor_assoc x.val y.val z.val)
  zero_add x := GF.eq_of_val (Nat.zero_xor x.val)
  add_zero x := GF.eq_of_val (Nat.xor_zero x.val)
  add_comm x y := GF.eq_of_val (Nat.xor_comm x.val y.val)
  neg_add_cancel x := GF.eq_of_val (Nat.xor_self x.val)
  mul_assoc x y z := GF.eq_of_val (GF256.mult_assoc_byte x.lt256 y.lt256 z.lt256)
  one_mul x := GF.eq_of_val (GF256.mult_one_left x.lt256)
  mul_one x := GF.eq_of_val (GF256.mult_one_right x.val)
  left_distrib x y z := GF.eq_of_val (GF256.mult_xor_right x.lt256 y.lt256 z.lt256)
  right_distrib x y z := GF.eq_of_val (GF256.mult_xor_left x.lt256 y.lt256)
  zero_mul x := GF.eq_of_val (GF256.mult_zero_left x.val)
  mul_zero x := GF.eq_of_val (GF256.mult_zero_right x.val)
  mul_comm x y := GF.eq_of_val (GF256.mult_comm_byte x.lt256 y.lt256)

instance : Field GF where
  nnqsmul := _
  qsmul := _
  exists_pair_ne := ⟨0, 1, by decide⟩
  mul_inv_cancel x hx := by
    apply GF.eq_of_val
    show GF256.mult x.val (GF256.inverse x.val) = 1
    exact GF256.mult_inverse_cancel x.val x.lt256
      (fun h0 => hx (GF.eq_of_val (show x.val = (0 : GF).val from h0)))
  inv_zero := GF.eq_of_val (show GF256.inverse 0 = 0 from GF256.inverse_zero)

/-- The bytes and `Fin 256` are in bijection. -/
def gfEquivFin : GF ≃ Fin 256 where
  toFun x := ⟨x.val, x.lt256⟩
  invFun i := ⟨i.val, i.isLt⟩
  left_inv x := rfl
  right_inv i := rfl

instance : Fintype GF := Fintype.ofEquiv (Fin 256) gfEquivFin.symm

theorem card_gf : Fintype.card GF = 256 := by
  rw [Fintype.card_congr gfEquivFin, Fintype.card_fin]

theorem gf_pow_card_sub_one {x : GF} (hx : x ≠ 0) : x ^ 255 = 1 := by
  have h := FiniteField.pow_card_sub_one_eq_one x hx
  rw [card_gf] at h
  exact h

theorem GF.val_pow (x : GF) (n : Nat) : (x ^ n).val = GF256.gfpow x.val n := by
  induction n with
  | zero => simp [GF256.gfpow, GF.val_one]
  | succ n ih => rw [pow_succ, GF.val_mul, ih, GF256.gfpow]

theorem inverse_eq_pow_byte {a : Nat} (ha : a < 256) :
    GF256.inverse a = GF256.gfpow a 254 := by
  have key : GF256.inverse a =
      (let x : GF := ⟨a, ha⟩
       let b1 := x * x
       let c1 := x * b1
       let b2 := c1 * c1
       let b3 := b2 * b2
       let c2 := b3 * c1
       let b4 := b3 * b3
       let b5 := b4 * b4
       let b6 := b5 * c2
       let b7 := b6 * b6
       let b8 := x * b7
       b8 * b8).val := rfl
  rw [key]
  have hp : GF256.gfpow a 254 = ((⟨a, ha⟩ : GF) ^ 254).val :=
    (GF.val_pow ⟨a, ha⟩ 254).symm
  rw [hp]
  congr 1
  show (let x : GF := ⟨a, ha⟩
       let b1 := x * x
       let c1 := x * b1
       let b2 := c1 * c1
       let b3 := b2 * b2
       let c2 := b3 * c1
       let b4 := b3 * b3
       let b5 := b4 * b4
       let b6 := b5 * c2
       let b7 := b6 * b6
       let b8 := x * b7
       b8 * b8) = (⟨a, ha⟩ : GF) ^ 254
  dsimp only
  ring

theorem mult_div_cancel_byte {a b : Nat} (ha : a < 256) (hb : b < 256) (hbne : b ≠ 0) :
    GF256.mult (if a = 0 then 0 else GF256.mult a (GF256.inverse b)) b = a := by
  by_cases h0 : a = 0
  · subst h0
    rw [if_pos rfl]
    exact GF256.mult_zero_left b
  · rw [if_neg h0]
    have hBne : (⟨b, hb⟩ : GF) ≠ 0 :=
      fun h => hbne (congrArg GF.val h)
    have key : ((⟨a, ha⟩ : GF) * (⟨b, hb⟩ : GF)⁻¹) * (⟨b, hb⟩ : GF) = (⟨a, ha⟩ : GF) := by
      rw [mul_assoc, inv_mul_cancel₀ hBne, mul_one]
    exact congrArg GF.val key

/-- C7: for every field element `a ≠ 0`, `inverse a` equals `a ^ 254` computed by
repeated GF(2^8) multiplication, and `mult a (inverse a) = 1`. -/
theorem claimC7_field_inverse (a : Nat) (ha : a < 256) (hne : a ≠ 0) :
    GF256.inverse a = GF256.gfpow a 254 ∧ GF256.mult a (GF256.inverse a) = 1 :=
  ⟨inverse_eq_pow_byte ha, GF256.mult_inverse_cancel a ha hne⟩

/-- Witness for C7 at the concrete byte 3. -/
theorem claimC7_witness :
    GF256.inverse 3 = GF256.gfpow 3 254 ∧ GF256.mult 3 (GF256.inverse 3) = 1 :=
  claimC7_field_inverse 3 (by norm_num) (by norm_num)

/-- C8: `div a b` fails exactly on `b = 0`; otherwise it returns `0` for `a = 0`
and `mult a (inverse b)` otherwise, and the returned quotient multiplied back by
`b` recovers `a`. -/
theorem claimC8_div (a b : Nat) (ha : a < 256) (hb : b < 256) :
    GF256.div a 0 = none ∧
    (b ≠ 0 → GF256.div a b = some (if a = 0 then 0 else GF256.mult a (GF256.inverse b)) ∧
      ∀ q, GF256.div a b = some q → GF256.mult q b = a) := by
  refine ⟨by simp [GF256.div], fun hbne => ⟨by simp [GF256.div, hbne], fun q hq => ?_⟩⟩
  rw [GF256.div, if_neg hbne] at hq
  have hqe : q = if a = 0 then 0 else GF256.mult a (GF256.inverse b) :=
    (Option.some.injEq _ _ ▸ hq).symm
  rw [hqe]
  exact mult_div_cancel_byte ha hb hbne

/-- Witness for C8 at the concrete bytes of the source's own test
(`div 6 3 = 2` and `2 * 3 = 6`). -/
theorem claimC8_witness :
    GF256.div 6 0 = none ∧
    (3 ≠ 0 → GF256.div 6 3 = some (if 6 = 0 then 0 else GF256.mult 6 (GF256.inverse 3)) ∧
      ∀ q, GF256.div 6 3 = some q → GF256.mult q 3 = 6) :=
  claimC8_div 6 3 (by norm_num) (by norm_num)

/-- C10: `inverse 0` returns 0 without any failure: every multiplication in the
exponentiation chain absorbs the zero element, so the function is total at 0
even though its documentation claims a panic. -/
theorem claimC10_inverse_zero : GF256.inverse 0 = 0 :=
  GF256.inverse_zero

/-- C5: split's validation fails exactly on the five listed conditions, checked
in the source's order (the reported failure is the first matching condition's
panic, each with a distinct message), and on any other input — with the
validation entirely preceding the share computation — split succeeds. -/
theorem claimC5_split_validation (secret : List Nat) (parts threshold : Nat)
    (xcoords : List Nat) (rnd : Nat → List Nat) :
    (parts < threshold →
      Shamir.split secret parts threshold xcoords rnd =
        .error "parts cannot be less than threshold") ∧
    (¬ parts < threshold → parts > 255 →
      Shamir.split secret parts threshold xcoords rnd =
        .error "parts cannot exceed 255") ∧
    (¬ parts < threshold → ¬ parts > 255 → threshold < 2 →
      Shamir.split secret parts threshold xcoords rnd =
        .error "threshold must be at least 2") ∧
    (¬ parts < threshold → ¬ parts > 255 → ¬ threshold < 2 → threshold > 255 →
      Shamir.split secret parts threshold xcoords rnd =
        .error "threshold cannot exceed 255") ∧
    (¬ parts < threshold → ¬ parts > 255 → ¬ threshold < 2 → ¬ threshold > 255 →
      secret = [] →
      Shamir.split secret parts threshold xcoords rnd =
        .error "cannot split an empty secret") ∧
    (¬ parts < threshold → ¬ parts > 255 → ¬ threshold < 2 → ¬ threshold > 255 →
      secret ≠ [] →
      ∃ shares, Shamir.split secret parts threshold xcoords rnd = .ok shares) := by
  refine ⟨fun h1 => ?_, fun h1 h2 => ?_, fun h1 h2 h3 => ?_, fun h1 h2 h3 h4 => ?_,
    fun h1 h2 h3 h4 h5 => ?_, fun h1 h2 h3 h4 h5 => ?_⟩
  · simp [Shamir.split, h1]
  · simp [Shamir.split, h1, h2]
  · simp [Shamir.split, h1, h2, h3]
  · simp [Shamir.split, h1, h2, h3, h4]
  · simp [Shamir.split, h1, h2, h3, h4, h5]
  · refine ⟨xcoords.map (fun x =>
      secret.enum.map (fun idxv =>
        (Shamir.Polynomial.new idxv.2 (rnd idxv.1)).evaluate x) ++ [x]), ?_⟩
    rw [Shamir.split, if_neg h1, if_neg h2, if_neg h3, if_neg h4,
      if_neg (by simpa [List.isEmpty_iff] using h5)]

/-- Witness for C5: the first and the last conjunct instantiated at concrete
inputs (a failing and a succeeding one). -/
theorem claimC5_witness :
    Shamir.split [1] 2 3 [1, 2] (fun _ => []) =
      .error "parts cannot be less than threshold" ∧
    ∃ shares, Shamir.split [1] 3 2 [1, 2, 3] (fun _ => [0]) = .ok shares :=
  ⟨(claimC5_split_validation [1] 2 3 [1, 2] (fun _ => [])).1 (by norm_num),
   (claimC5_split_validation [1] 3 2 [1, 2, 3] (fun _ => [0])).2.2.2.2.2
     (by norm_num) (by norm_num) (by norm_num) (by norm_num) (by simp)⟩

/-- C4 as stated is false on this code: validation failures are the source's
`panic!` calls (process aborts, modelled here as the error outcome carrying the
panic message), not recoverable values of the specification's named error
kinds; at the concrete invalid input below, split ends in the panic. -/
theorem claimC4_counterexample :
    Shamir.split [1] 2 3 [] (fun _ => []) =
      .error "parts cannot be less than threshold" := by
  rfl

/-- C4 amended: every invalid input to split or combine makes the code fail by
`panic!` (a process abort) with one of the fixed panic messages of src/shamir.rs;
no recoverable named-error-kind value is ever produced. -/
theorem claimC4_panic_on_invalid (secret : List Nat) (parts threshold : Nat)
    (xcoords : List Nat) (rnd : Nat → List Nat) (shares : List (List Nat)) :
    ((parts < threshold ∨ parts > 255 ∨ threshold < 2 ∨ threshold > 255 ∨ secret = []) →
      ∃ msg, Shamir.split secret parts threshold xcoords rnd = .error msg ∧
        msg ∈ ["parts cannot be less than threshold", "parts cannot exceed 255",
               "threshold must be at least 2", "threshold cannot exceed 255",
               "cannot split an empty secret"]) ∧
    ((shares.length < 2 ∨ (shares.getD 0 []).length < 2 ∨
        (∃ p ∈ shares, p.length ≠ (shares.getD 0 []).length) ∨
        ¬ (shares.map (fun p => p.getLastD 0)).Nodup) →
      ∃ msg, Shamir.combine shares = .error msg ∧
        msg ∈ ["less than two parts cannot be used to reconstruct the secret",
               "all parts must be at least two bytes and the same length",
               "duplicate part detected"]) := by
  constructor
  · intro hinv
    rw [Shamir.split]
    by_cases h1 : parts < threshold
    · exact ⟨_, by rw [if_pos h1], by simp⟩
    rw [if_neg h1]
    by_cases h2 : parts > 255
    · exact ⟨_, by rw [if_pos h2], by simp⟩
    rw [if_neg h2]
    by_cases h3 : threshold < 2
    · exact ⟨_, by rw [if_pos h3], by simp⟩
    rw [if_neg h3]
    by_cases h4 : threshold > 255
    · exact ⟨_, by rw [if_pos h4], by simp⟩
    rw [if_neg h4]
    have h5 : secret = [] := by tauto
    exact ⟨_, by rw [if_pos (by simpa [List.isEmpty_iff] using h5)], by simp⟩
  · intro hinv
    rw [Shamir.combine]
    by_cases h1 : shares.length < 2
    · exact ⟨_, by rw [if_pos h1], by simp⟩
    rw [if_neg h1]
    by_cases h2 : (shares.getD 0 []).length < 2 ∨
        shares.any (fun part => part.length != (shares.getD 0 []).length)
    · exact ⟨_, by rw [if_pos h2], by simp⟩
    rw [if_neg h2]
    push_neg at h2
    by_cases h3 : ¬ (shares.map (fun p => p.getLastD 0)).Nodup
    · exact ⟨_, by rw [if_pos h3], by simp⟩
    exfalso
    rcases hinv with h | h | h | h
    · exact h1 h
    · exact absurd h (by omega)
    · obtain ⟨p, hp, hne⟩ := h
      have hany : (shares.any fun part => part.length != (shares.getD 0 []).length) = false :=
        Bool.eq_false_iff.mpr h2.2
      rw [List.any_eq_false] at hany
      have hfalse := hany p hp
      simp only [bne_iff_ne, ne_eq, Decidable.not_not] at hfalse
      exact hne hfalse
    · exact h3 h

/-- Witness for C4's amended claim: the split half at a concrete invalid input
(parts below threshold) and the combine half at the empty list. -/
theorem claimC4_witness :
    (∃ msg, Shamir.split [1] 2 3 [] (fun _ => []) = .error msg ∧
        msg ∈ ["parts cannot be less than threshold", "parts cannot exceed 255",
               "threshold must be at least 2", "threshold cannot exceed 255",
               "cannot split an empty secret"]) ∧
    (∃ msg, Shamir.combine [] = .error msg ∧
        msg ∈ ["less than two parts cannot be used to reconstruct the secret",
               "all parts must be at least two bytes and the same length",
               "duplicate part detected"]) :=
  ⟨(claimC4_panic_on_invalid [1] 2 3 [] (fun _ => []) []).1 (by norm_num),
   (claimC4_panic_on_invalid [1] 2 3 [] (fun _ => []) []).2 (by norm_num)⟩

/-- C2: on a valid request, split returns exactly `parts` shares, each of
length `len(secret) + 1`, whose trailing x-coordinate bytes are pairwise
distinct and lie in `[1, 255]`.  The hypotheses on `xcoords` state what
`(1..=255).choose_multiple(rng, parts)` guarantees about the drawn
x-coordinates. -/
theorem claimC2_share_shape (secret : List Nat) (parts threshold : Nat)
    (xcoords : List Nat) (rnd : Nat → List Nat)
    (hpt : threshold ≤ parts) (hp255 : parts ≤ 255)
    (ht2 : 2 ≤ threshold) (ht255 : threshold ≤ 255) (hsec : secret ≠ [])
    (hxlen : xcoords.length = parts) (hxnd : xcoords.Nodup)
    (hxrange : ∀ x ∈ xcoords, 1 ≤ x ∧ x ≤ 255) :
    ∃ shares, Shamir.split secret parts threshold xcoords rnd = .ok shares ∧
      shares.length = parts ∧
      (∀ sh ∈ shares, sh.length = secret.length + 1) ∧
      (shares.map (fun sh => sh.getLastD 0)).Nodup ∧
      (∀ sh ∈ shares, 1 ≤ sh.getLastD 0 ∧ sh.getLastD 0 ≤ 255) := by
  refine ⟨xcoords.map (fun x =>
      secret.enum.map (fun idxv =>
        (Shamir.Polynomial.new idxv.2 (rnd idxv.1)).evaluate x) ++ [x]), ?_, ?_, ?_, ?_, ?_⟩
  · rw [Shamir.split, if_neg (by omega), if_neg (by omega), if_neg (by omega),
      if_neg (by omega), if_neg (by simpa [List.isEmpty_iff] using hsec)]
  · rw [List.length_map, hxlen]
  · intro sh hsh
    obtain ⟨x, hx, rfl⟩ := List.mem_map.mp hsh
    rw [List.length_append, List.length_map, List.enum_length, List.length_singleton]
  · rw [List.map_map]
    have hcomp : ((fun sh => List.getLastD sh 0) ∘ fun x =>
        secret.enum.map (fun idxv =>
          (Shamir.Polynomial.new idxv.2 (rnd idxv.1)).evaluate x) ++ [x]) = id := by
      funext x
      simp [List.getLastD_concat]
    rw [hcomp, List.map_id]
    exact hxnd
  · intro sh hsh
    obtain ⟨x, hx, rfl⟩ := List.mem_map.mp hsh
    rw [List.getLastD_concat]
    exact hxrange x hx

/-- Witness for C2 at a concrete valid input. -/
theorem claimC2_witness :
    ∃ shares, Shamir.split [7, 8] 3 2 [1, 2, 3] (fun _ => [5]) = .ok shares ∧
      shares.length = 3 ∧
      (∀ sh ∈ shares, sh.length = [7, 8].length + 1) ∧
      (shares.map (fun sh => sh.getLastD 0)).Nodup ∧
      (∀ sh ∈ shares, 1 ≤ sh.getLastD 0 ∧ sh.getLastD 0 ≤ 255) :=
  claimC2_share_shape [7, 8] 3 2 [1, 2, 3] (fun _ => [5])
    (by norm_num) (by norm_num) (by norm_num) (by norm_num) (by simp)
    (by simp) (by decide) (by decide)

/-! Pure (panic-free) form of the interpolation computed by
`Shamir.interpolate_polynomial`, and its identification with a Lagrange
interpolation sum over the field `GF`. -/

/-- The value `GF256.div` returns when it does not panic. -/
def divP (a b : Nat) : Nat := if a = 0 then 0 else GF256.mult a (GF256.inverse b)

/-- Index-based rendering of the interpolation fold of src/shamir.rs
`interpolate_polynomial`, with all divisions replaced by their non-panicking
values. -/
def interpP (xs ys : List Nat) (x : Nat) : Nat :=
  (List.range xs.length).foldl (fun acc i =>
    GF256.add acc (GF256.mult (ys.getD i 0)
      (((List.range xs.length).filter (fun j => j ≠ i)).foldl (fun b j =>
        GF256.mult b
          (divP (GF256.add x (xs.getD j 0)) (GF256.add (xs.getD i 0) (xs.getD j 0)))) 1))) 0

/-- A byte as an element of `GF` (the reduction is the identity on actual
bytes). -/
def gfByte (n : Nat) : GF := ⟨n % 256, Nat.mod_lt n (by norm_num)⟩

theorem gfByte_val {n : Nat} (h : n < 256) : (gfByte n).val = n := Nat.mod_eq_of_lt h

/-- Byte lists as `GF` coefficient lists. -/
def toGFList : (l : List Nat) → (∀ a ∈ l, a < 256) → List GF
  | [], _ => []
  | a :: l, hb =>
    ⟨a, hb a (List.mem_cons_self a l)⟩ ::
      toGFList l (fun x hx => hb x (List.mem_cons_of_mem a hx))

theorem toGFList_map_val : ∀ (l : List Nat) (hb : ∀ a ∈ l, a < 256),
    (toGFList l hb).map GF.val = l
  | [], _ => rfl
  | a :: l, hb => by
    rw [toGFList, List.map_cons, toGFList_map_val l]

theorem foldlM_option_eq {α β : Type} (l : List α) (f : β → α → Option β) (g : β → α → β)
    (h : ∀ b : β, ∀ a ∈ l, f b a = some (g b a)) :
    ∀ init : β, l.foldlM f init = some (l.foldl g init) := by
  induction l with
  | nil => intro init; rfl
  | cons a l ih =>
    intro init
    rw [List.foldlM_cons, List.foldl_cons, h init a (List.mem_cons_self a l)]
    exact ih (fun b x hx => h b x (List.mem_cons_of_mem a hx)) (g init a)

theorem mapM_option_eq {α β : Type} (l : List α) (f : α → Option β) (g : α → β)
    (h : ∀ a ∈ l, f a = some (g a)) : l.mapM f = some (l.map g) := by
  induction l with
  | nil => rfl
  | cons a l ih =>
    rw [List.mapM_cons, h a (List.mem_cons_self a l), List.map_cons]
    rw [ih (fun x hx => h x (List.mem_cons_of_mem a hx))]
    rfl

theorem enum_eq_range_map (xs : List Nat) :
    xs.enum = (List.range xs.length).map (fun i => (i, xs.getD i 0)) := by
  apply List.ext_getElem
  · rw [List.enum_length, List.length_map, List.length_range]
  · intro i h1 h2
    rw [List.getElem_map, List.getElem_range]
    have hi : i < xs.length := by simpa using h1
    have := List.get_enum xs ⟨i, h1⟩
    simp only [List.get_eq_getElem] at this
    rw [this]
    have hgd : xs.getD i 0 = xs[i] := by
      rw [List.getD_eq_getElem?_getD, List.getElem?_eq_getElem hi]
      rfl
    rw [hgd]
    rfl

theorem foldl_add_val (l : List Nat) (F : Nat → GF) :
    ∀ init : GF, l.foldl (fun acc i => GF256.add acc (F i).val) init.val
      = (l.foldl (fun acc i => acc + F i) init).val := by
  induction l with
  | nil => intro init; rfl
  | cons a l ih =>
    intro init
    rw [List.foldl_cons, List.foldl_cons]
    exact ih (init + F a)

theorem foldl_mul_val (l : List Nat) (F : Nat → GF) :
    ∀ init : GF, l.foldl (fun acc i => GF256.mult acc (F i).val) init.val
      = (l.foldl (fun acc i => acc * F i) init).val := by
  induction l with
  | nil => intro init; rfl
  | cons a l ih =>
    intro init
    rw [List.foldl_cons, List.foldl_cons]
    exact ih (init * F a)

theorem foldl_add_eq_sum (n : Nat) (F : Nat → GF) :
    (List.range n).foldl (fun acc i => acc + F i) 0 = ∑ i in Finset.range n, F i := by
  induction n with
  | zero => rfl
  | succ n ih =>
    rw [List.range_succ, List.foldl_append, List.foldl_cons, List.foldl_nil,
      Finset.sum_range_succ, ih]

theorem foldl_mul_eq_prod (l : List Nat) (F : Nat → GF) :
    ∀ c : GF, l.foldl (fun b j => b * F j) c = c * (l.map F).prod := by
  induction l with
  | nil => intro c; rw [List.foldl_nil, List.map_nil, List.prod_nil, mul_one]
  | cons a l ih =>
    intro c
    rw [List.foldl_cons, List.map_cons, List.prod_cons, ih (c * F a), mul_assoc]

theorem prod_filter_range (n i : Nat) (F : Nat → GF) :
    (((List.range n).filter (fun j => j ≠ i)).map F).prod
      = ∏ j in (Finset.range n).erase i, F j := by
  have hnd : ((List.range n).filter (fun j => j ≠ i)).Nodup :=
    (List.nodup_range n).filter _
  rw [← List.prod_toFinset F hnd, List.toFinset_filter]
  have hrange : (List.range n).toFinset = Finset.range n := by
    apply Finset.ext
    intro a
    rw [List.mem_toFinset, List.mem_range, Finset.mem_range]
  rw [hrange]
  have : (Finset.range n).filter (fun a => (decide (a ≠ i) : Bool) = true)
      = (Finset.range n).erase i := by
    rw [← Finset.filter_ne' (Finset.range n) i]
    apply Finset.filter_congr
    intro j hj
    simp
  rw [this]

theorem getD_eq_getElem_byte {l : List Nat} {i : Nat} (h : i < l.length) :
    l.getD i 0 = l[i] := by
  rw [List.getD_eq_getElem?_getD, List.getElem?_eq_getElem h]
  rfl

theorem interpolate_eq_some (xs ys : List Nat) (x : Nat)
    (hnd : xs.Nodup) (hlen : xs.length ≤ ys.length) :
    Shamir.interpolate_polynomial xs ys x = some (interpP xs ys x) := by
  rw [Shamir.interpolate_polynomial, interpP, enum_eq_range_map, List.foldlM_map]
  apply foldlM_option_eq
  intro acc i hi
  rw [List.mem_range] at hi
  have hfil : List.filter (fun (jxj : Nat × Nat) => decide (jxj.1 ≠ i))
      ((List.range xs.length).map (fun k => (k, xs.getD k 0)))
      = ((List.range xs.length).filter (fun j => j ≠ i)).map (fun k => (k, xs.getD k 0)) := by
    rw [List.filter_map]
    rfl
  show (do
    let basis ← (List.filter (fun (jxj : Nat × Nat) => decide (jxj.1 ≠ i))
        ((List.range xs.length).map (fun k => (k, xs.getD k 0)))).foldlM
      (fun b (jxj : Nat × Nat) => do
        let t ← GF256.div (GF256.add x jxj.2) (GF256.add (xs.getD i 0) jxj.2)
        pure (GF256.mult b t)) 1
    let yi ← ys.get? i
    pure (GF256.add acc (GF256.mult yi basis))) = _
  rw [hfil, List.foldlM_map]
  have hstep : ∀ b : Nat, ∀ j ∈ (List.range xs.length).filter (fun j => j ≠ i),
      (do
        let t ← GF256.div (GF256.add x (xs.getD j 0)) (GF256.add (xs.getD i 0) (xs.getD j 0))
        pure (GF256.mult b t))
      = some (GF256.mult b
          (divP (GF256.add x (xs.getD j 0)) (GF256.add (xs.getD i 0) (xs.getD j 0)))) := by
    intro b j hj
    rw [List.mem_filter, List.mem_range] at hj
    obtain ⟨hjn, hjne⟩ := hj
    have hne : j ≠ i := by simpa using hjne
    have hdenom : GF256.add (xs.getD i 0) (xs.getD j 0) ≠ 0 := by
      show xs.getD i 0 ^^^ xs.getD j 0 ≠ 0
      rw [Nat.xor_ne_zero, getD_eq_getElem_byte hi, getD_eq_getElem_byte hjn]
      intro heq
      exact hne ((List.Nodup.getElem_inj_iff hnd).mp heq.symm)
    rw [GF256.div, if_neg hdenom]
    rfl
  rw [foldlM_option_eq _ _
    (fun b j => GF256.mult b
      (divP (GF256.add x (xs.getD j 0)) (GF256.add (xs.getD i 0) (xs.getD j 0)))) hstep 1]
  have hget : ys.get? i = some (ys.getD i 0) := by
    rw [List.get?_eq_getElem?, List.getElem?_eq_getElem (lt_of_lt_of_le hi hlen),
      getD_eq_getElem_byte (lt_of_lt_of_le hi hlen)]
  rw [hget]
  rfl

theorem combine_def (parts : List (List Nat)) :
    Shamir.combine parts =
      if parts.length < 2 then
        .error "less than two parts cannot be used to reconstruct the secret"
      else if (parts.getD 0 []).length < 2 ∨
          parts.any (fun part => part.length != (parts.getD 0 []).length) then
        .error "all parts must be at least two bytes and the same length"
      else if ¬ (parts.map (fun part => part.getLastD 0)).Nodup then
        .error "duplicate part detected"
      else
        match (List.range ((parts.getD 0 []).length - 1)).mapM
            (fun idx => Shamir.interpolate_polynomial
              (parts.map (fun part => part.getLastD 0))
              (parts.map (fun part => part.getD idx 0)) 0) with
        | some secret => .ok secret
        | none => .error "divide by zero" := rfl

theorem combine_eq_ok (parts : List (List Nat)) (L : Nat)
    (h2 : 2 ≤ parts.length) (hL2 : 2 ≤ L)
    (hlen : ∀ p ∈ parts, p.length = L)
    (hnd : (parts.map (fun p => p.getLastD 0)).Nodup) :
    Shamir.combine parts = .ok ((List.range (L - 1)).map (fun idx =>
      interpP (parts.map (fun p => p.getLastD 0))
        (parts.map (fun p => p.getD idx 0)) 0)) := by
  have h0 : 0 < parts.length := by omega
  have hfirst : (parts.getD 0 []).length = L := by
    have hg : parts.getD 0 [] = parts[0] := by
      rw [List.getD_eq_getElem?_getD, List.getElem?_eq_getElem h0]
      rfl
    rw [hg]
    exact hlen _ (List.getElem_mem h0)
  rw [combine_def, if_neg (by omega), hfirst]
  rw [if_neg (by
    push_neg
    refine ⟨by omega, ?_⟩
    apply Bool.not_eq_true _ |>.mpr
    rw [List.any_eq_false]
    intro p hp
    simp [hlen p hp])]
  rw [if_neg (not_not.mpr hnd)]
  rw [mapM_option_eq _ _
    (fun idx => interpP (parts.map (fun p => p.getLastD 0))
      (parts.map (fun p => p.getD idx 0)) 0)
    (fun idx _ => interpolate_eq_some _ _ 0 hnd (by rw [List.length_map, List.length_map]))]

/-- C6: combine's validation fails exactly on the three listed condition
groups, in the source's order and each with a distinct message; on any other
input combine succeeds with a result. -/
theorem claimC6_combine_validation (parts : List (List Nat)) :
    (parts.length < 2 →
      Shamir.combine parts =
        .error "less than two parts cannot be used to reconstruct the secret") ∧
    (¬ parts.length < 2 →
      ((parts.getD 0 []).length < 2 ∨ ∃ p ∈ parts, p.length ≠ (parts.getD 0 []).length) →
      Shamir.combine parts =
        .error "all parts must be at least two bytes and the same length") ∧
    (¬ parts.length < 2 →
      ¬ ((parts.getD 0 []).length < 2 ∨ ∃ p ∈ parts, p.length ≠ (parts.getD 0 []).length) →
      ¬ (parts.map (fun p => p.getLastD 0)).Nodup →
      Shamir.combine parts = .error "duplicate part detected") ∧
    (¬ parts.length < 2 →
      ¬ ((parts.getD 0 []).length < 2 ∨ ∃ p ∈ parts, p.length ≠ (parts.getD 0 []).length) →
      (parts.map (fun p => p.getLastD 0)).Nodup →
      ∃ secret, Shamir.combine parts = .ok secret) := by
  refine ⟨fun h1 => ?_, fun h1 h2 => ?_, fun h1 h2 h3 => ?_, fun h1 h2 h3 => ?_⟩
  · rw [combine_def, if_pos h1]
  · rw [combine_def, if_neg h1, if_pos ?_]
    rcases h2 with h | ⟨p, hp, hne⟩
    · exact Or.inl h
    · refine Or.inr ?_
      rw [List.any_eq_true]
      exact ⟨p, hp, by simpa using hne⟩
  · push_neg at h2
    rw [combine_def, if_neg h1, if_neg ?_, if_pos h3]
    push_neg
    refine ⟨by omega, ?_⟩
    apply Bool.not_eq_true _ |>.mpr
    rw [List.any_eq_false]
    intro p hp
    simp [h2.2 p hp]
  · push_neg at h2
    refine ⟨_, combine_eq_ok parts ((parts.getD 0 []).length) (by omega) (by omega)
      (fun p hp => h2.2 p hp) h3⟩

/-- Witness for C6: the first conjunct at the empty list and the last conjunct
at a concrete pair of well-formed shares. -/
theorem claimC6_witness :
    Shamir.combine ([] : List (List Nat)) =
      .error "less than two parts cannot be used to reconstruct the secret" ∧
    ∃ secret, Shamir.combine [[0, 1], [3, 2]] = .ok secret :=
  ⟨(claimC6_combine_validation []).1 (by norm_num),
   (claimC6_combine_validation [[0, 1], [3, 2]]).2.2.2
     (by norm_num) (by simp) (by decide)⟩

/-- C3: on a valid list of shares of common length `L ≥ 2`, combine succeeds
with a byte sequence of length `L - 1` whose byte `idx` is exactly the value
of the GF(2^8) Lagrange interpolation at `x = 0` of the point set pairing each
share's trailing byte with its byte at index `idx`. -/
theorem claimC3_combine_algorithm (parts : List (List Nat)) (L : Nat)
    (h2 : 2 ≤ parts.length) (hL2 : 2 ≤ L) (hlen : ∀ p ∈ parts, p.length = L)
    (hnd : (parts.map (fun p => p.getLastD 0)).Nodup) :
    ∃ secret, Shamir.combine parts = .ok secret ∧ secret.length = L - 1 ∧
      ∀ idx < L - 1,
        Shamir.interpolate_polynomial (parts.map (fun p => p.getLastD 0))
          (parts.map (fun p => p.getD idx 0)) 0 = some (secret.getD idx 0) := by
  refine ⟨_, combine_eq_ok parts L h2 hL2 hlen hnd, ?_, ?_⟩
  · rw [List.length_map, List.length_range]
  · intro idx hidx
    rw [interpolate_eq_some _ _ 0 hnd (by rw [List.length_map, List.length_map])]
    have hentry : (((List.range (L - 1)).map (fun idx =>
        interpP (parts.map (fun p => p.getLastD 0))
          (parts.map (fun p => p.getD idx 0)) 0)).getD idx 0)
        = interpP (parts.map (fun p => p.getLastD 0))
            (parts.map (fun p => p.getD idx 0)) 0 := by
      rw [getD_eq_getElem_byte (by rw [List.length_map, List.length_range]; exact hidx),
        List.getElem_map, List.getElem_range]
    rw [hentry]

/-- Witness for C3 at a concrete pair of shares of length 2. -/
theorem claimC3_witness :
    ∃ secret, Shamir.combine [[0, 1], [3, 2]] = .ok secret ∧ secret.length = 2 - 1 ∧
      ∀ idx < 2 - 1,
        Shamir.interpolate_polynomial ([[0, 1], [3, 2]].map (fun p => p.getLastD 0))
          ([[0, 1], [3, 2]].map (fun p => p.getD idx 0)) 0 = some (secret.getD idx 0) :=
  claimC3_combine_algorithm [[0, 1], [3, 2]] 2 (by norm_num) (by norm_num)
    (by simp) (by decide)

theorem divP_val (A B : GF) : divP A.val B.val = (A * B⁻¹).val := by
  unfold divP
  by_cases h : A.val = 0
  · rw [if_pos h]
    have hA : A = 0 := GF.eq_of_val h
    rw [hA, zero_mul]
    rfl
  · rw [if_neg h]
    rfl

theorem foldl_add_val_zero (l : List Nat) (F : Nat → GF) :
    l.foldl (fun acc i => GF256.add acc (F i).val) 0
      = (l.foldl (fun acc i => acc + F i) 0).val :=
  foldl_add_val l F 0

theorem foldl_mul_val_one (l : List Nat) (F : Nat → GF) :
    l.foldl (fun acc i => GF256.mult acc (F i).val) 1
      = (l.foldl (fun acc i => acc * F i) 1).val :=
  foldl_mul_val l F 1

theorem interpP_eq_val (xs ys : List Nat) (x : Nat)
    (hxb : ∀ a ∈ xs, a < 256) (hyb : ∀ a ∈ ys, a < 256) (hx : x < 256)
    (hylen : xs.length ≤ ys.length) :
    interpP xs ys x
      = (∑ i in Finset.range xs.length,
          gfByte (ys.getD i 0) *
            ∏ j in (Finset.range xs.length).erase i,
              ((gfByte x + gfByte (xs.getD j 0)) *
                (gfByte (xs.getD i 0) + gfByte (xs.getD j 0))⁻¹)).val := by
  have hxd : ∀ j, j < xs.length → xs.getD j 0 < 256 := fun j hj => by
    rw [getD_eq_getElem_byte hj]
    exact hxb _ (List.getElem_mem hj)
  have hyd : ∀ i, i < xs.length → ys.getD i 0 < 256 := fun i hi => by
    rw [getD_eq_getElem_byte (lt_of_lt_of_le hi hylen)]
    exact hyb _ (List.getElem_mem _)
  have hbasis : ∀ i, i < xs.length →
      ((List.range xs.length).filter (fun j => j ≠ i)).foldl (fun b j =>
        GF256.mult b
          (divP (GF256.add x (xs.getD j 0)) (GF256.add (xs.getD i 0) (xs.getD j 0)))) 1
      = (∏ j in (Finset.range xs.length).erase i,
          ((gfByte x + gfByte (xs.getD j 0)) *
            (gfByte (xs.getD i 0) + gfByte (xs.getD j 0))⁻¹)).val := by
    intro i hi
    rw [List.foldl_ext _ (fun (b : Nat) j =>
        GF256.mult b (((gfByte x + gfByte (xs.getD j 0)) *
          (gfByte (xs.getD i 0) + gfByte (xs.getD j 0))⁻¹) : GF).val) 1
      (by
        intro b j hj
        rw [List.mem_filter, List.mem_range] at hj
        have h1 : GF256.add x (xs.getD j 0)
            = ((gfByte x + gfByte (xs.getD j 0)) : GF).val := by
          rw [GF.val_add, gfByte_val hx, gfByte_val (hxd j hj.1)]
        have h2 : GF256.add (xs.getD i 0) (xs.getD j 0)
            = ((gfByte (xs.getD i 0) + gfByte (xs.getD j 0)) : GF).val := by
          rw [GF.val_add, gfByte_val (hxd i hi), gfByte_val (hxd j hj.1)]
        rw [h1, h2, divP_val])]
    rw [foldl_mul_val_one, foldl_mul_eq_prod, one_mul, prod_filter_range]
  rw [interpP]
  rw [List.foldl_ext _ (fun (acc : Nat) i =>
      GF256.add acc ((gfByte (ys.getD i 0) *
        ∏ j in (Finset.range xs.length).erase i,
          ((gfByte x + gfByte (xs.getD j 0)) *
            (gfByte (xs.getD i 0) + gfByte (xs.getD j 0))⁻¹)) : GF).val) 0
    (by
      intro acc i hi
      rw [List.mem_range] at hi
      have hmul : GF256.mult (ys.getD i 0)
          (((List.range xs.length).filter (fun j => j ≠ i)).foldl (fun b j =>
            GF256.mult b
              (divP (GF256.add x (xs.getD j 0))
                (GF256.add (xs.getD i 0) (xs.getD j 0)))) 1)
          = ((gfByte (ys.getD i 0) *
              ∏ j in (Finset.range xs.length).erase i,
                ((gfByte x + gfByte (xs.getD j 0)) *
                  (gfByte (xs.getD i 0) + gfByte (xs.getD j 0))⁻¹)) : GF).val := by
        rw [hbasis i hi, GF.val_mul, gfByte_val (hyd i hi)]
      rw [hmul])]
  rw [foldl_add_val_zero, foldl_add_eq_sum]

theorem GF.neg_eq (y : GF) : -y = y :=
  (neg_eq_of_add_eq_zero_left (GF.eq_of_val (Nat.xor_self y.val))).symm

theorem GF.sub_eq_add (x y : GF) : x - y = x + y := by
  rw [sub_eq_add_neg, GF.neg_eq]

/-- The polynomial over `GF` with the given (low-to-high) coefficient list. -/
noncomputable def fromCoeffs : List GF → Polynomial GF
  | [] => 0
  | c :: cs => Polynomial.C c + Polynomial.X * fromCoeffs cs

theorem eval_fromCoeffs (x : GF) : ∀ cs : List GF,
    Polynomial.eval x (fromCoeffs cs) = cs.reverse.foldl (fun acc c => acc * x + c) 0
  | [] => by simp [fromCoeffs]
  | c :: cs => by
    rw [fromCoeffs, List.reverse_cons, List.foldl_append, List.foldl_cons, List.foldl_nil,
      ← eval_fromCoeffs x cs, Polynomial.eval_add, Polynomial.eval_C, Polynomial.eval_mul,
      Polynomial.eval_X]
    ring

theorem degree_fromCoeffs_lt : ∀ cs : List GF,
    (fromCoeffs cs).degree < (cs.length : WithBot Nat)
  | [] => by
    rw [fromCoeffs, Polynomial.degree_zero]
    exact WithBot.bot_lt_coe _
  | c :: cs => by
    rw [fromCoeffs, List.length_cons]
    apply lt_of_le_of_lt (Polynomial.degree_add_le _ _)
    rw [max_lt_iff]
    constructor
    · apply lt_of_le_of_lt Polynomial.degree_C_le
      exact_mod_cast Nat.succ_pos cs.length
    · by_cases hq : fromCoeffs cs = 0
      · rw [hq, mul_zero, Polynomial.degree_zero]
        exact WithBot.bot_lt_coe _
      · rw [Polynomial.degree_mul, Polynomial.degree_X]
        have ih := degree_fromCoeffs_lt cs
        rw [Polynomial.degree_eq_natDegree hq] at ih ⊢
        have ihn : (fromCoeffs cs).natDegree < cs.length := by exact_mod_cast ih
        have hone : (1 : WithBot Nat) + ((fromCoeffs cs).natDegree : WithBot Nat)
            = ((1 + (fromCoeffs cs).natDegree : Nat) : WithBot Nat) := by
          push_cast
          ring
        rw [hone]
        exact_mod_cast by omega

theorem eval_zero_fromCoeffs (c : GF) (cs : List GF) :
    Polynomial.eval 0 (fromCoeffs (c :: cs)) = c := by
  rw [fromCoeffs, Polynomial.eval_add, Polynomial.eval_C, Polynomial.eval_mul,
    Polynomial.eval_X, zero_mul, add_zero]

theorem sum_formula_eq_eval_interpolate (m : Nat) (v r : Nat → GF) :
    (∑ i in Finset.range m, r i * ∏ j in (Finset.range m).erase i,
        (v j * (v i + v j)⁻¹))
      = Polynomial.eval 0 (Lagrange.interpolate (Finset.range m) v r) := by
  rw [Lagrange.interpolate_apply, Polynomial.eval_finset_sum]
  apply Finset.sum_congr rfl
  intro i hi
  rw [Polynomial.eval_mul, Polynomial.eval_C]
  congr 1
  rw [Lagrange.basis, Polynomial.eval_prod]
  apply Finset.prod_congr rfl
  intro j hj
  rw [Lagrange.basisDivisor, Polynomial.eval_mul, Polynomial.eval_C, Polynomial.eval_sub,
    Polynomial.eval_X, Polynomial.eval_C, zero_sub, GF.neg_eq, GF.sub_eq_add, mul_comm]

theorem horner_fold_val (x : GF) : ∀ (CS : List GF) (init : GF),
    (CS.map GF.val).foldl (fun acc c => GF256.add (GF256.mult acc x.val) c) init.val
      = (CS.foldl (fun acc c => acc * x + c) init).val
  | [], init => rfl
  | c :: CS, init => by
    rw [List.map_cons, List.foldl_cons, List.foldl_cons]
    exact horner_fold_val x CS (init * x + c)

theorem horner_fold_val_zero (x : GF) (CS : List GF) :
    (CS.map GF.val).foldl (fun acc c => GF256.add (GF256.mult acc x.val) c) 0
      = (CS.foldl (fun acc c => acc * x + c) 0).val :=
  horner_fold_val x CS 0

theorem evaluate_val (CS : List GF) (x : GF) :
    Shamir.Polynomial.evaluate ⟨CS.map GF.val⟩ x.val
      = (Polynomial.eval x (fromCoeffs CS)).val := by
  rw [Shamir.Polynomial.evaluate]
  show ((CS.map GF.val).reverse).foldl
    (fun acc c => GF256.add (GF256.mult acc x.val) c) 0 = _
  rw [← List.map_reverse, horner_fold_val_zero, eval_fromCoeffs]

theorem byte_getLastD_lt {p : List Nat} (hp : ∀ b ∈ p, b < 256) : p.getLastD 0 < 256 := by
  induction p using List.reverseRecOn with
  | nil => norm_num
  | append_singleton l a ih =>
    rw [List.getLastD_concat]
    exact hp a (List.mem_append_right l (List.mem_singleton_self a))

theorem byte_getD_lt {p : List Nat} (hp : ∀ b ∈ p, b < 256) (i : Nat) : p.getD i 0 < 256 := by
  by_cases h : i < p.length
  · rw [getD_eq_getElem_byte h]
    exact hp _ (List.getElem_mem h)
  · rw [List.getD_eq_getElem?_getD, List.getElem?_eq_none (by omega)]
    norm_num

theorem toGFList_length : ∀ (l : List Nat) (hb : ∀ a ∈ l, a < 256),
    (toGFList l hb).length = l.length := by
  intro l hb
  have h := congrArg List.length (toGFList_map_val l hb)
  rw [List.length_map] at h
  exact h

theorem evaluate_lt {cs : List Nat} (hb : ∀ a ∈ cs, a < 256) {x : Nat} (hx : x < 256) :
    Shamir.Polynomial.evaluate ⟨cs⟩ x < 256 := by
  have h1 : Shamir.Polynomial.evaluate ⟨cs⟩ x
      = Shamir.Polynomial.evaluate ⟨(toGFList cs hb).map GF.val⟩ ((⟨x, hx⟩ : GF)).val := by
    rw [toGFList_map_val]
  rw [h1, evaluate_val]
  exact (Polynomial.eval (⟨x, hx⟩ : GF) (fromCoeffs (toGFList cs hb))).lt256

theorem combine_entry_eq_eval (parts : List (List Nat)) (idx : Nat)
    (hb : ∀ p ∈ parts, ∀ b ∈ p, b < 256) :
    interpP (parts.map (fun p => p.getLastD 0)) (parts.map (fun p => p.getD idx 0)) 0
      = (Polynomial.eval 0 (Lagrange.interpolate (Finset.range parts.length)
          (fun i => gfByte ((parts.map (fun p => p.getLastD 0)).getD i 0))
          (fun i => gfByte ((parts.map (fun p => p.getD idx 0)).getD i 0)))).val := by
  have hxb : ∀ a ∈ parts.map (fun p => p.getLastD 0), a < 256 := by
    intro a ha
    obtain ⟨p, hp, rfl⟩ := List.mem_map.mp ha
    exact byte_getLastD_lt (hb p hp)
  have hyb : ∀ a ∈ parts.map (fun p => p.getD idx 0), a < 256 := by
    intro a ha
    obtain ⟨p, hp, rfl⟩ := List.mem_map.mp ha
    exact byte_getD_lt (hb p hp) idx
  rw [interpP_eq_val _ _ 0 hxb hyb (by norm_num)
    (by rw [List.length_map, List.length_map])]
  rw [List.length_map]
  congr 1
  rw [← sum_formula_eq_eval_interpolate]
  apply Finset.sum_congr rfl
  intro i hi
  congr 1
  apply Finset.prod_congr rfl
  intro j hj
  congr 1
  show (0 : GF) + _ = _
  rw [zero_add]

theorem enum_getElem (l : List Nat) (i : Nat) (h : i < l.enum.length) :
    l.enum[i] = (i, l.get ⟨i, by simpa using h⟩) := by
  have := List.get_enum l ⟨i, h⟩
  simpa using this

/-- C1: for every non-empty byte secret, threshold `T ∈ [2,255]`, parts
`N ∈ [T,255]`, and every outcome of the randomness used by split (the drawn
x-coordinates and the random polynomial coefficients), combining any
subcollection of at least `T` of the returned shares yields exactly the
secret. -/
theorem claimC1_round_trip (secret : List Nat) (parts threshold : Nat)
    (xcoords : List Nat) (rnd : Nat → List Nat) (shares sel : List (List Nat))
    (hsec : secret ≠ []) (hsb : ∀ b ∈ secret, b < 256)
    (ht2 : 2 ≤ threshold) (ht255 : threshold ≤ 255)
    (hpt : threshold ≤ parts) (hp255 : parts ≤ 255)
    (hxlen : xcoords.length = parts) (hxnd : xcoords.Nodup)
    (hxr : ∀ x ∈ xcoords, 1 ≤ x ∧ x ≤ 255)
    (hrnd : ∀ idx, (rnd idx).length = threshold - 1 ∧ ∀ c ∈ rnd idx, c < 256)
    (hsplit : Shamir.split secret parts threshold xcoords rnd = .ok shares)
    (hsel : sel.Subperm shares) (hselT : threshold ≤ sel.length) :
    Shamir.combine sel = .ok secret := by
  have hshares : shares = xcoords.map (fun x =>
      secret.enum.map (fun idxv =>
        (Shamir.Polynomial.new idxv.2 (rnd idxv.1)).evaluate x) ++ [x]) := by
    rw [Shamir.split, if_neg (by omega), if_neg (by omega), if_neg (by omega),
      if_neg (by omega), if_neg (by simpa [List.isEmpty_iff] using hsec)] at hsplit
    exact (Except.ok.inj hsplit).symm
  subst hshares
  have hmem : ∀ p ∈ sel, ∃ x, x ∈ xcoords ∧ p = secret.enum.map (fun idxv =>
      (Shamir.Polynomial.new idxv.2 (rnd idxv.1)).evaluate x) ++ [x] := by
    intro p hp
    obtain ⟨x, hx, hpx⟩ := List.mem_map.mp (hsel.subset hp)
    exact ⟨x, hx, hpx.symm⟩
  have hL2 : 2 ≤ secret.length + 1 := by
    have := List.length_pos.mpr hsec
    omega
  have hlen : ∀ p ∈ sel, p.length = secret.length + 1 := by
    intro p hp
    obtain ⟨x, hx, rfl⟩ := hmem p hp
    rw [List.length_append, List.length_map, List.enum_length, List.length_singleton]
  have hmapsh : (xcoords.map (fun x => secret.enum.map (fun idxv =>
      (Shamir.Polynomial.new idxv.2 (rnd idxv.1)).evaluate x) ++ [x])).map
        (fun p => p.getLastD 0) = xcoords := by
    rw [List.map_map]
    have hcomp : ((fun p => List.getLastD p 0) ∘ fun x => secret.enum.map (fun idxv =>
        (Shamir.Polynomial.new idxv.2 (rnd idxv.1)).evaluate x) ++ [x]) = id := by
      funext x
      simp [List.getLastD_concat]
    rw [hcomp, List.map_id]
  have hndsel : (sel.map (fun p => p.getLastD 0)).Nodup := by
    obtain ⟨l, hlperm, hlsub⟩ := hsel
    have hsub2 : List.Sublist (l.map (fun p => p.getLastD 0)) xcoords := by
      have h := hlsub.map (fun p => p.getLastD 0)
      rwa [hmapsh] at h
    exact (List.Perm.nodup_iff (hlperm.map _)).mp (List.Nodup.sublist hsub2 hxnd)
  have hbytes : ∀ p ∈ sel, ∀ b ∈ p, b < 256 := by
    intro p hp b hb
    obtain ⟨x, hx, rfl⟩ := hmem p hp
    rcases List.mem_append.mp hb with hb1 | hb2
    · obtain ⟨idxv, hiv, rfl⟩ := List.mem_map.mp hb1
      show Shamir.Polynomial.evaluate ⟨idxv.2 :: rnd idxv.1⟩ x < 256
      apply evaluate_lt ?_ (show x < 256 by have := hxr x hx; omega)
      intro c hc
      rcases List.mem_cons.mp hc with rfl | hcr
      · have hm2 : secret[idxv.1]? = some idxv.2 := List.mem_enum_iff_getElem?.mp hiv
        exact hsb _ (List.getElem?_mem hm2)
      · exact (hrnd idxv.1).2 c hcr
    · have hbx : b = x := List.mem_singleton.mp hb2
      subst hbx
      have := hxr b hx
      omega
  rw [combine_eq_ok sel (secret.length + 1) (by omega) hL2 hlen hndsel]
  congr 1
  apply List.ext_getElem
  · rw [List.length_map, List.length_range]
    omega
  · intro idx h1 h2
    rw [List.getElem_map, List.getElem_range]
    have hidx : idx < secret.length := by
      rw [List.length_map, List.length_range] at h1
      omega
    rw [combine_entry_eq_eval sel idx hbytes]
    -- byte bounds of the two sample lists
    have hxsb : ∀ a ∈ sel.map (fun p => p.getLastD 0), a < 256 := by
      intro a ha
      obtain ⟨p, hp, rfl⟩ := List.mem_map.mp ha
      exact byte_getLastD_lt (hbytes p hp)
    have hysb : ∀ a ∈ sel.map (fun p => p.getD idx 0), a < 256 := by
      intro a ha
      obtain ⟨p, hp, rfl⟩ := List.mem_map.mp ha
      exact byte_getD_lt (hbytes p hp) idx
    have hvval : ∀ i (hi : i < sel.length),
        (gfByte ((sel.map (fun p => p.getLastD 0)).getD i 0)).val
          = sel[i].getLastD 0 := by
      intro i hi
      have hb : (sel.map (fun p => p.getLastD 0)).getD i 0 < 256 :=
        byte_getD_lt hxsb i
      rw [gfByte_val hb, getD_eq_getElem_byte (by rw [List.length_map]; exact hi),
        List.getElem_map]
    have hrval : ∀ i (hi : i < sel.length),
        (gfByte ((sel.map (fun p => p.getD idx 0)).getD i 0)).val
          = sel[i].getD idx 0 := by
      intro i hi
      have hb : (sel.map (fun p => p.getD idx 0)).getD i 0 < 256 :=
        byte_getD_lt hysb i
      rw [gfByte_val hb, getD_eq_getElem_byte (by rw [List.length_map]; exact hi),
        List.getElem_map]
    -- injectivity of the node map
    have hinj : Set.InjOn (fun i => gfByte ((sel.map (fun p => p.getLastD 0)).getD i 0))
        (Finset.range sel.length) := by
      intro i hi j hj hij
      simp only [Finset.coe_range, Set.mem_Iio] at hi hj
      have hij2 : gfByte ((sel.map (fun p => p.getLastD 0)).getD i 0)
          = gfByte ((sel.map (fun p => p.getLastD 0)).getD j 0) := hij
      have heq : sel[i].getLastD 0 = sel[j].getLastD 0 := by
        rw [← hvval i hi, ← hvval j hj, hij2]
      have hbi : i < (sel.map (fun p => p.getLastD 0)).length := by
        rw [List.length_map]; exact hi
      have hbj : j < (sel.map (fun p => p.getLastD 0)).length := by
        rw [List.length_map]; exact hj
      have heq2 : (sel.map (fun p => p.getLastD 0)).get ⟨i, hbi⟩
          = (sel.map (fun p => p.getLastD 0)).get ⟨j, hbj⟩ := by
        rw [List.get_eq_getElem, List.get_eq_getElem, List.getElem_map, List.getElem_map]
        exact heq
      exact congrArg Fin.val ((List.Nodup.get_inj_iff hndsel).mp heq2)
    -- the byte-idx polynomial
    have hcs : ∀ a ∈ (secret[idx] :: rnd idx), a < 256 := by
      intro a ha
      rcases List.mem_cons.mp ha with rfl | har
      · exact hsb _ (List.getElem_mem hidx)
      · exact (hrnd idx).2 a har
    have hdeg : (fromCoeffs (toGFList (secret[idx] :: rnd idx) hcs)).degree
        < ((Finset.range sel.length).card : WithBot Nat) := by
      rw [Finset.card_range]
      apply lt_of_lt_of_le (degree_fromCoeffs_lt _)
      rw [toGFList_length, List.length_cons, (hrnd idx).1]
      exact_mod_cast (show threshold - 1 + 1 ≤ sel.length by omega)
    -- the sampled values are the polynomial's values at the nodes
    have hvals : ∀ i ∈ Finset.range sel.length,
        gfByte ((sel.map (fun p => p.getD idx 0)).getD i 0)
          = Polynomial.eval (gfByte ((sel.map (fun p => p.getLastD 0)).getD i 0))
              (fromCoeffs (toGFList (secret[idx] :: rnd idx) hcs)) := by
      intro i hi
      rw [Finset.mem_range] at hi
      apply GF.eq_of_val
      rw [hrval i hi]
      obtain ⟨x, hx, hpx⟩ := hmem sel[i] (List.getElem_mem hi)
      have hx256 : x < 256 := by
        have := hxr x hx
        omega
      have hnode : (gfByte ((sel.map (fun p => p.getLastD 0)).getD i 0)).val = x := by
        rw [hvval i hi, hpx, List.getLastD_concat]
      have hyv : sel[i].getD idx 0
          = Shamir.Polynomial.evaluate ⟨secret[idx] :: rnd idx⟩ x := by
        rw [hpx]
        have hlenem : idx < (secret.enum.map (fun idxv =>
            (Shamir.Polynomial.new idxv.2 (rnd idxv.1)).evaluate x)).length := by
          rw [List.length_map, List.enum_length]
          exact hidx
        rw [getD_eq_getElem_byte (by rw [List.length_append, List.length_singleton]; omega),
          List.getElem_append_left hlenem, List.getElem_map,
          enum_getElem secret idx (by simpa using hidx)]
        rfl
      rw [hyv]
      have hev := evaluate_val (toGFList (secret[idx] :: rnd idx) hcs)
        (gfByte ((sel.map (fun p => p.getLastD 0)).getD i 0))
      rw [toGFList_map_val] at hev
      rw [← hev, hnode]
    have hinterp : Lagrange.interpolate (Finset.range sel.length)
          (fun i => gfByte ((sel.map (fun p => p.getLastD 0)).getD i 0))
          (fun i => gfByte ((sel.map (fun p => p.getD idx 0)).getD i 0))
        = Lagrange.interpolate (Finset.range sel.length)
          (fun i => gfByte ((sel.map (fun p => p.getLastD 0)).getD i 0))
          (fun i => Polynomial.eval (gfByte ((sel.map (fun p => p.getLastD 0)).getD i 0))
            (fromCoeffs (toGFList (secret[idx] :: rnd idx) hcs))) :=
      Lagrange.interpolate_eq_of_values_eq_on _ _ hvals
    rw [hinterp, ← Lagrange.eq_interpolate hinj hdeg, toGFList, eval_zero_fromCoeffs]

/-- Witness for C1: secret `[1, 2]` split 2-of-2 with x-coordinates 1, 2 and
random coefficient 5 for both byte polynomials; combining both shares returns
the secret. -/
theorem claimC1_witness : Shamir.combine [[4, 7, 1], [11, 8, 2]] = .ok [1, 2] :=
  claimC1_round_trip [1, 2] 2 2 [1, 2] (fun _ => [5]) [[4, 7, 1], [11, 8, 2]]
    [[4, 7, 1], [11, 8, 2]]
    (by decide) (by decide) (by decide) (by decide) (by decide) (by decide)
    (by decide) (by decide) (by decide)
    (fun i => ⟨rfl, by intro c hc; rw [List.mem_singleton] at hc; omega⟩)
    rfl
    (List.Subperm.refl _) (by decide)

theorem node_val (parts : List (List Nat)) (hb : ∀ p ∈ parts, ∀ b ∈ p, b < 256)
    (i : Nat) (hi : i < parts.length) :
    (gfByte ((parts.map (fun p => p.getLastD 0)).getD i 0)).val = parts[i].getLastD 0 := by
  have hlt : (parts.map (fun p => p.getLastD 0)).getD i 0 < 256 := by
    apply byte_getD_lt ?_ i
    intro a ha
    obtain ⟨p, hp, rfl⟩ := List.mem_map.mp ha
    exact byte_getLastD_lt (hb p hp)
  rw [gfByte_val hlt, getD_eq_getElem_byte (by rw [List.length_map]; exact hi),
    List.getElem_map]

theorem value_val (parts : List (List Nat)) (hb : ∀ p ∈ parts, ∀ b ∈ p, b < 256)
    (idx i : Nat) (hi : i < parts.length) :
    (gfByte ((parts.map (fun p => p.getD idx 0)).getD i 0)).val = parts[i].getD idx 0 := by
  have hlt : (parts.map (fun p => p.getD idx 0)).getD i 0 < 256 := by
    apply byte_getD_lt ?_ i
    intro a ha
    obtain ⟨p, hp, rfl⟩ := List.mem_map.mp ha
    exact byte_getD_lt (hb p hp) idx
  rw [gfByte_val hlt, getD_eq_getElem_byte (by rw [List.length_map]; exact hi),
    List.getElem_map]

theorem nodes_injOn (parts : List (List Nat)) (hb : ∀ p ∈ parts, ∀ b ∈ p, b < 256)
    (hnd : (parts.map (fun p => p.getLastD 0)).Nodup) :
    Set.InjOn (fun i => gfByte ((parts.map (fun p => p.getLastD 0)).getD i 0))
      (Finset.range parts.length) := by
  intro i hi j hj hij
  simp only [Finset.coe_range, Set.mem_Iio] at hi hj
  have hij2 : gfByte ((parts.map (fun p => p.getLastD 0)).getD i 0)
      = gfByte ((parts.map (fun p => p.getLastD 0)).getD j 0) := hij
  have heq : parts[i].getLastD 0 = parts[j].getLastD 0 := by
    rw [← node_val parts hb i hi, ← node_val parts hb j hj, hij2]
  have hbi : i < (parts.map (fun p => p.getLastD 0)).length := by
    rw [List.length_map]; exact hi
  have hbj : j < (parts.map (fun p => p.getLastD 0)).length := by
    rw [List.length_map]; exact hj
  have heq2 : (parts.map (fun p => p.getLastD 0)).get ⟨i, hbi⟩
      = (parts.map (fun p => p.getLastD 0)).get ⟨j, hbj⟩ := by
    rw [List.get_eq_getElem, List.get_eq_getElem, List.getElem_map, List.getElem_map]
    exact heq
  exact congrArg Fin.val ((List.Nodup.get_inj_iff hnd).mp heq2)

theorem interpolate_reindex (m : Nat) (v r v' r' : Nat → GF)
    (hinj : Set.InjOn v (Finset.range m))
    (hinj' : Set.InjOn v' (Finset.range m))
    (hmatch : ∀ i ∈ Finset.range m, ∃ j ∈ Finset.range m, v' j = v i ∧ r' j = r i) :
    Lagrange.interpolate (Finset.range m) v' r' = Lagrange.interpolate (Finset.range m) v r := by
  apply Lagrange.eq_interpolate_of_eval_eq _ hinj
  · exact Lagrange.degree_interpolate_lt _ hinj'
  · intro i hi
    obtain ⟨j, hj, hvj, hrj⟩ := hmatch i hi
    rw [← hvj, ← hrj]
    exact Lagrange.eval_interpolate_at_node _ hinj' hj

/-- C9: combine is order-independent — on any valid share list, permuting the
list does not change the result (share identity is carried by the trailing
x-coordinate, not by list position). -/
theorem claimC9_order_independence (shares shares' : List (List Nat)) (L : Nat)
    (hperm : shares.Perm shares')
    (h2 : 2 ≤ shares.length) (hL2 : 2 ≤ L) (hlen : ∀ p ∈ shares, p.length = L)
    (hnd : (shares.map (fun p => p.getLastD 0)).Nodup)
    (hb : ∀ p ∈ shares, ∀ b ∈ p, b < 256) :
    Shamir.combine shares' = Shamir.combine shares := by
  have hlength : shares.length = shares'.length := hperm.length_eq
  have h2' : 2 ≤ shares'.length := by omega
  have hlen' : ∀ p ∈ shares', p.length = L := fun p hp => hlen p (hperm.mem_iff.mpr hp)
  have hb' : ∀ p ∈ shares', ∀ b ∈ p, b < 256 := fun p hp => hb p (hperm.mem_iff.mpr hp)
  have hnd' : (shares'.map (fun p => p.getLastD 0)).Nodup :=
    (List.Perm.nodup_iff (hperm.map _)).mp hnd
  rw [combine_eq_ok shares L h2 hL2 hlen hnd, combine_eq_ok shares' L h2' hL2 hlen' hnd']
  congr 1
  apply List.map_congr_left
  intro idx hidx
  rw [combine_entry_eq_eval shares idx hb, combine_entry_eq_eval shares' idx hb']
  have hinj := nodes_injOn shares hb hnd
  have hinj' := nodes_injOn shares' hb' hnd'
  rw [hlength] at hinj
  have hmatch : ∀ i ∈ Finset.range shares'.length, ∃ j ∈ Finset.range shares'.length,
      gfByte ((shares'.map (fun p => p.getLastD 0)).getD j 0)
        = gfByte ((shares.map (fun p => p.getLastD 0)).getD i 0) ∧
      gfByte ((shares'.map (fun p => p.getD idx 0)).getD j 0)
        = gfByte ((shares.map (fun p => p.getD idx 0)).getD i 0) := by
    intro i hi
    rw [Finset.mem_range] at hi
    have hilt : i < shares.length := by omega
    have hmem : shares[i] ∈ shares' := hperm.mem_iff.mp (List.getElem_mem hilt)
    obtain ⟨j, hj, hji⟩ := List.mem_iff_getElem.mp hmem
    refine ⟨j, Finset.mem_range.mpr hj, ?_, ?_⟩
    · apply GF.eq_of_val
      rw [node_val shares hb i hilt, node_val shares' hb' j hj, hji]
    · apply GF.eq_of_val
      rw [value_val shares hb idx i hilt, value_val shares' hb' idx j hj, hji]
  have hpoly := interpolate_reindex shares'.length
    (fun i => gfByte ((shares.map (fun p => p.getLastD 0)).getD i 0))
    (fun i => gfByte ((shares.map (fun p => p.getD idx 0)).getD i 0))
    (fun i => gfByte ((shares'.map (fun p => p.getLastD 0)).getD i 0))
    (fun i => gfByte ((shares'.map (fun p => p.getD idx 0)).getD i 0))
    hinj hinj' hmatch
  rw [hlength, hpoly]

/-- Witness for C9: swapping the two shares of the C1 witness split changes
nothing. -/
theorem claimC9_witness :
    Shamir.combine [[11, 8, 2], [4, 7, 1]] = Shamir.combine [[4, 7, 1], [11, 8, 2]] :=
  claimC9_order_independence [[4, 7, 1], [11, 8, 2]] [[11, 8, 2], [4, 7, 1]] 3
    (List.Perm.swap _ _ _) (by norm_num) (by norm_num) (by decide) (by decide) (by decide)
